import Mathlib

/-!
Verification development for `ElevationSampler/core.py`.

The Python functions are embedded shallowly: numpy float arrays become
`List ℚ` (exact rational arithmetic), pandas DataFrames of intervals become
`List Brunnel`, fallible operations (Python `assert`, `IndexError`) become
`Option`.  Rolling standard deviations (`adjust_forest_height`) involve a
square root and are modelled over `ℝ`.
-/

namespace ElevationSampler

/-- Python `round` on a rational: round half to even (banker's rounding),
the semantics of `round(float)` used at `core.py` lines 442-443, 474. -/
def pyRound (q : ℚ) : ℤ :=
  let f := ⌊q⌋
  let r := q - (f : ℚ)
  if r < 1/2 then f
  else if 1/2 < r then f + 1
  else if f % 2 = 0 then f else f + 1

/-- Python list indexing `l[i]` with an integer index: nonnegative indices
are positional, negative indices count from the end, anything out of range
raises `IndexError` (modelled as `none`). -/
def pyGet (l : List ℚ) (i : ℤ) : Option ℚ :=
  if 0 ≤ i then l.get? i.toNat
  else if 0 ≤ (l.length : ℤ) + i then l.get? ((l.length : ℤ) + i).toNat
  else none

/-- A brunnel interval row: the `brunnel`, `start_dist`, `end_dist`
columns of the DataFrames in `core.py` (the derived `length` column is
`end_dist - start_dist`). -/
structure Brunnel where
  kind : String
  start_dist : ℚ
  end_dist : ℚ
deriving DecidableEq, Repr

instance : Inhabited Brunnel := ⟨⟨"", 0, 0⟩⟩

/-- Embedding of `np.convolve(a, [1, -1], 'same')` (core.py lines 340-341): the full
convolution has length `a.length + 1` with value `a[k] - a[k-1]` at `k`
(out-of-range terms are zero), and mode `'same'` keeps the first
`max a.length 2` entries (slice start `(2-1)/2 = 0`). -/
def diffSame (a : List ℚ) : List ℚ :=
  (List.range (max a.length 2)).map fun k =>
    (if k < a.length then a.getD k 0 else 0) -
    (if 1 ≤ k ∧ k - 1 < a.length then a.getD (k-1) 0 else 0)

/-- First index `j` with `j0 ≤ j < n` satisfying `p`, the semantics of
`for j in range(j0, n): if p(j): ...; break` in the steep-region scan. -/
def findFrom (p : ℕ → Bool) (j0 n : ℕ) : Option ℕ :=
  (List.range' j0 (n - j0)).find? p

/-- The steep-region scan of `interpolate_brunnels` (core.py lines 347-384).
The outer `while i < len(elevation)` loop strictly increases `i` each
iteration (to `j+1` when the inner loop breaks at `j`, else to `i+1`), so
running the recursion with fuel `elev.length` from `i = 0` performs exactly
the iterations of the source loop. -/
def scanAux (elev dists : List ℚ) (thresh maxB maxT : ℚ) :
    ℕ → ℕ → List Brunnel
  | 0, _ => []
  | fuel+1, i =>
    if i < elev.length then
      let di := (diffSame elev).getD i 0
      if di < -thresh then
        match findFrom (fun j => decide (elev.getD i 0 ≤ elev.getD j 0))
            (i+1) elev.length with
        | some j =>
          if dists.getD j 0 - dists.getD i 0 ≤ maxB then
            ⟨"bridge", dists.getD i 0, dists.getD j 0⟩ ::
              scanAux elev dists thresh maxB maxT fuel (j+1)
          else scanAux elev dists thresh maxB maxT fuel (j+1)
        | none => scanAux elev dists thresh maxB maxT fuel (i+1)
      else if thresh < di then
        match findFrom (fun j => decide (elev.getD j 0 ≤ elev.getD i 0))
            (i+1) elev.length with
        | some j =>
          if dists.getD j 0 - dists.getD i 0 ≤ maxT then
            ⟨"tunnel", dists.getD i 0, dists.getD j 0⟩ ::
              scanAux elev dists thresh maxB maxT fuel (j+1)
          else scanAux elev dists thresh maxB maxT fuel (j+1)
        | none => scanAux elev dists thresh maxB maxT fuel (i+1)
      else scanAux elev dists thresh maxB maxT fuel (i+1)
    else []

/-- The synthetic brunnel candidates recorded by the steep-region scan,
in scan order (core.py lines 347-388). -/
def constructedBrunnels (elev dists : List ℚ) (thresh maxB maxT : ℚ) :
    List Brunnel :=
  scanAux elev dists thresh maxB maxT elev.length 0

/-- Test `(brunnel.start_dist >= brunnels['start_dist']) & (brunnel.start_dist
<= brunnels['end_dist'])` for one known row (core.py lines 398-399). -/
def startInB (c k : Brunnel) : Bool :=
  decide (k.start_dist ≤ c.start_dist) && decide (c.start_dist ≤ k.end_dist)

/-- End-inside-known test (core.py lines 400-401). -/
def endInB (c k : Brunnel) : Bool :=
  decide (k.start_dist ≤ c.end_dist) && decide (c.end_dist ≤ k.end_dist)

/-- Constructed-around-known test (core.py lines 405-406). -/
def aroundB (c k : Brunnel) : Bool :=
  decide (c.start_dist ≤ k.start_dist) && decide (k.end_dist ≤ c.end_dist)

/-- The drop test for one constructed row against one known row; the row is
dropped when `np.sum(start_in_brunnel | end_in_brunnel | around_brunnel) > 0`
holds, i.e. when this is true for some known row (core.py lines 396-409). -/
def overlapsB (c k : Brunnel) : Bool :=
  startInB c k || endInB c k || aroundB c k

/-- Constructed candidates surviving the small-length filter
`constructed_brunnels.length > distance_delta` (core.py line 391). -/
def lengthFiltered (elev dists : List ℚ) (distance_delta thresh maxB maxT : ℚ) :
    List Brunnel :=
  (constructedBrunnels elev dists thresh maxB maxT).filter
    (fun b => decide (distance_delta < b.end_dist - b.start_dist))

/-- Constructed candidates surviving both the length filter and the
overlap-with-known drop pass (core.py lines 390-411). -/
def keptSynthetic (elev dists : List ℚ) (knowns : List Brunnel)
    (distance_delta thresh maxB maxT : ℚ) : List Brunnel :=
  (lengthFiltered elev dists distance_delta thresh maxB maxT).filter
    (fun c => !(knowns.any (overlapsB c)))

/-- The interval set reaching the per-sample correction loop: when
`construct_brunnels` is enabled, the known rows concatenated with the
surviving synthetic rows and sorted by `start_dist` (core.py lines 414-417);
otherwise the known rows as passed. -/
def finalBrunnels (elev dists : List ℚ) (knowns : List Brunnel)
    (distance_delta : ℚ) (construct_brunnels : Bool)
    (maxB maxT thresh : ℚ) : List Brunnel :=
  if construct_brunnels then
    List.insertionSort (fun a b => a.start_dist ≤ b.start_dist)
      (knowns ++ keptSynthetic elev dists knowns distance_delta thresh maxB maxT)
  else knowns

/-- Membership test `(x >= start_dists) & (x <= end_dists)` for one
interval row (core.py line 427). -/
def coversB (b : Brunnel) (x : ℚ) : Bool :=
  decide (b.start_dist ≤ x) && decide (x ≤ b.end_dist)

/-- The value `m * x + c` of the line through `(x1, y1)` and `(x2, y2)`
with `m = (y2 - y1)/(x2 - x1)` and `c = y1 - m * x1`
(core.py lines 483-488). -/
def lineEval (x1 y1 x2 y2 x : ℚ) : ℚ :=
  let m := (y2 - y1) / (x2 - x1)
  m * x + (y1 - m * x1)

/-- The corrected value written for a sample at distance `x` covered by the
interval `b`, reading endpoint elevations from the current array `ele`
(core.py lines 441-488).  `none` models an `IndexError` on one of the
reads. -/
def brValue (bs : List Brunnel) (distance_delta : ℚ) (b : Brunnel) (x : ℚ)
    (ele : List ℚ) : Option ℚ :=
  let sIdx : ℤ := pyRound (b.start_dist / distance_delta) - 1
  let eIdx : ℤ := pyRound (b.end_dist / distance_delta) + 1
  let startE? : Option (Option ℚ) :=
    if 0 < sIdx then (pyGet ele sIdx).map some else some none
  let endE? : Option (Option ℚ) :=
    if eIdx < (ele.length : ℤ) - 1 then (pyGet ele eIdx).map some
    else some none
  match startE?, endE? with
  | some (some s), some (some e) =>
    some (lineEval (b.start_dist - distance_delta) s
      (b.end_dist + distance_delta) e x)
  | some (some s), some none =>
    some (lineEval (b.start_dist - distance_delta) s
      (b.end_dist + distance_delta) s x)
  | some none, some (some e) =>
    some (lineEval (b.start_dist - distance_delta) e
      (b.end_dist + distance_delta) e x)
  | some none, some none =>
    let eIdx2 : ℤ := pyRound ((bs.getLastD b).end_dist / distance_delta)
    match pyGet ele 0, pyGet ele eIdx2 with
    | some s, some e =>
      some (lineEval (b.start_dist - distance_delta) s
        (b.end_dist + distance_delta) e x)
    | _, _ => none
  | _, _ => none

/-- One iteration of the correction loop at sample index `i`, distance `x`:
the assertion `idx.size <= 1` (core.py line 429) fails on two or more
covering rows (`none`); one covering row writes the corrected value at
index `i`; no covering row leaves the array unchanged. -/
def phaseCStep (bs : List Brunnel) (distance_delta : ℚ) (i : ℕ) (x : ℚ)
    (ele : List ℚ) : Option (List ℚ) :=
  match bs.filter (fun b => coversB b x) with
  | [] => some ele
  | [b] =>
    (brValue bs distance_delta b x ele).bind fun v =>
      if i < ele.length then some (ele.set i v) else none
  | _ => none

/-- The correction loop `for i, x in enumerate(distances)` from index `i`
(core.py lines 423-488), with fuel counting the remaining iterations. -/
def phaseCGo (bs : List Brunnel) (distance_delta : ℚ) (dists : List ℚ) :
    ℕ → ℕ → List ℚ → Option (List ℚ)
  | 0, _, ele => some ele
  | fuel+1, i, ele =>
    if i < dists.length then
      (phaseCStep bs distance_delta i (dists.getD i 0) ele).bind
        (phaseCGo bs distance_delta dists fuel (i+1))
    else some ele

/-- Embedding of `ElevationSampler.interpolate_brunnels` (core.py lines 309-490):
early return when no known rows and construction disabled, otherwise the
per-sample correction loop over the final interval set, started on a copy
of the input elevation.  `none` models an assertion failure or
`IndexError`. -/
def interpolate_brunnels (elevation distances : List ℚ)
    (brunnels : List Brunnel) (distance_delta : ℚ)
    (construct_brunnels : Bool) (maxB maxT thresh : ℚ) :
    Option (List ℚ) :=
  if brunnels.isEmpty && !construct_brunnels then some elevation
  else
    phaseCGo
      (finalBrunnels elevation distances brunnels distance_delta
        construct_brunnels maxB maxT thresh)
      distance_delta distances distances.length 0 elevation

/-- One iteration of the Phase A merge loop of `interpolate_brunnels_old`
at row index `k` (core.py lines 226-241).  The state is the current row
array together with the accumulated `drop_idx` list.  When row `k` merges,
the source writes `end_dist` of row `k-1` (whether or not that row was
itself merged away earlier) and then copies row `k-1`'s current
`start_dist` into row `k`; the `end_dist` write does not change row
`k-1`'s `start_dist`, so the copied value is `prev.start_dist`. -/
def mergeStep (merge_distance : ℚ) (st : List Brunnel × List ℕ) (k : ℕ) :
    List Brunnel × List ℕ :=
  if 1 ≤ k then
    let prev := st.1.getD (k-1) default
    let cur := st.1.getD k default
    if cur.start_dist ≤ prev.end_dist + merge_distance then
      ((st.1.set (k-1) { prev with end_dist := cur.end_dist }).set k
        { cur with start_dist := prev.start_dist }, st.2 ++ [k])
    else st
  else st

/-- The Phase A merge pass of `interpolate_brunnels_old`
(core.py lines 225-242): scan all row indices in order, then drop the rows
recorded in `drop_idx`. -/
def mergePass (rows : List Brunnel) (merge_distance : ℚ) : List Brunnel :=
  let st := (List.range rows.length).foldl (mergeStep merge_distance) (rows, [])
  (List.range rows.length).filterMap fun k =>
    if k ∈ st.2 then none else st.1.get? k

/-- Embedding of `np.arange(0, stop, step)` over exact rationals: the values
`0, step, 2*step, ...` strictly below `stop`, of length
`⌈stop / step⌉` (empty for nonpositive `stop` or negative `step`). -/
def arangeQ (stop step : ℚ) : List ℚ :=
  (List.range (⌈stop / step⌉).toNat).map fun k : ℕ => (k : ℚ) * step

/-- Segment walk of `np.interp`: given the previous knot `(x0, f0)` and
the remaining knots, return the piecewise-linear value at `x` (the last
ordinate for `x` beyond the final knot). -/
def interpGo (x0 f0 : ℚ) : List (ℚ × ℚ) → ℚ → ℚ
  | [], _ => f0
  | (x1, f1) :: rest, x =>
    if x ≤ x1 then f0 + (f1 - f0) / (x1 - x0) * (x - x0)
    else interpGo x1 f1 rest x

/-- Embedding of `np.interp(x, xp, fp)` for increasing `xp`: clamp below the first
knot, piecewise-linear between knots, clamp above the last knot. -/
def np_interp (xp fp : List ℚ) (x : ℚ) : ℚ :=
  match xp, fp with
  | x0 :: xs, f0 :: fs => if x < x0 then f0 else interpGo x0 f0 (xs.zip fs) x
  | _, _ => 0

/-- Embedding of `ElevationSampler.resample_ele` (core.py lines 526-551): build
`np.arange(0, distances[-1], distance)`, append `distances[-1]` when the
last grid point does not exceed it, and linearly interpolate the
elevations onto the new grid.  `none` models the `IndexError` raised by
`distances[-1]` or `distances_interpolated[-1]` on an empty array. -/
def resample_ele (elevation distances : List ℚ) (distance : ℚ) :
    Option (List ℚ × List ℚ) :=
  match distances.getLast? with
  | none => none
  | some dLast =>
    let di := arangeQ dLast distance
    match di.getLast? with
    | none => none
    | some lastI =>
      if lastI ≤ dLast then
        some (di ++ [dLast], (di ++ [dLast]).map (np_interp distances elevation))
      else
        some (di, di.map (np_interp distances elevation))

/-- The trailing rolling sample standard deviation
`pd.Series(elevation).rolling(window_size).std()` at position `i`
(core.py line 517): `NaN` (modelled `none`) until the window is full,
otherwise the square root of the sum of squared deviations from the
window mean divided by `window_size - 1` (pandas default `ddof=1`). -/
noncomputable def rollingStd (l : List ℝ) (window_size : ℕ) (i : ℕ) :
    Option ℝ :=
  if 2 ≤ window_size ∧ window_size ≤ i + 1 then
    let win := (l.take (i+1)).drop (i+1-window_size)
    let μ := win.sum / (window_size : ℝ)
    some (Real.sqrt
      (((win.map fun v => (v - μ)^2).sum) / ((window_size : ℝ) - 1)))
  else none

/-- Embedding of `ElevationSampler.adjust_forest_height` (core.py lines 492-520): where
the rolling standard deviation `t` exceeds `std_thresh`, subtract
`np.clip(t * sub_factor, 0, clip) = min (max (t * sub_factor) 0) clip`;
elsewhere (including the positions where `t` is `NaN`, which fail the
`t > std_thresh` comparison) the sample is unchanged. -/
noncomputable def adjust_forest_height (l : List ℝ) (window_size : ℕ)
    (std_thresh sub_factor clip : ℝ) : List ℝ :=
  (List.range l.length).map fun i =>
    match rollingStd l window_size i with
    | some t =>
      if std_thresh < t then l.getD i 0 - min (max (t * sub_factor) 0) clip
      else l.getD i 0
    | none => l.getD i 0

/-- The caller-visible effect of `interpolate_brunnels` on its `elevation`
argument: the pair (returned array, `elevation` array after the call).
The source copies the input at line 422 (`ele_brunnel = elevation.copy()`)
and every write in the correction loop targets the copy (line 488), so
the array passed by the caller is unchanged when the call returns. -/
def interpolate_brunnels_effect (elevation distances : List ℚ)
    (brunnels : List Brunnel) (distance_delta : ℚ)
    (construct_brunnels : Bool) (maxB maxT thresh : ℚ) :
    Option (List ℚ × List ℚ) :=
  (interpolate_brunnels elevation distances brunnels distance_delta
    construct_brunnels maxB maxT thresh).map fun ret => (ret, elevation)

/-- Two interval rows with no commonly covered distance: the abstract
non-overlap property behind the `assert idx.size <= 1` invariant. -/
def NoCommon (a b : Brunnel) : Prop :=
  ∀ x : ℚ, ¬(coversB a x = true ∧ coversB b x = true)

/-! ### Basic lemmas -/

theorem coversB_iff (b : Brunnel) (x : ℚ) :
    coversB b x = true ↔ b.start_dist ≤ x ∧ x ≤ b.end_dist := by
  simp [coversB]

theorem overlapsB_iff (c k : Brunnel) :
    overlapsB c k = true ↔
      (k.start_dist ≤ c.start_dist ∧ c.start_dist ≤ k.end_dist) ∨
      (k.start_dist ≤ c.end_dist ∧ c.end_dist ≤ k.end_dist) ∨
      (c.start_dist ≤ k.start_dist ∧ k.end_dist ≤ c.end_dist) := by
  simp [overlapsB, startInB, endInB, aroundB, or_assoc]

/-- Any common covered point of a constructed row `c` and a known row `k`
forces one of the three drop conditions of core.py lines 396-409. -/
theorem overlapsB_of_common (c k : Brunnel) (x : ℚ)
    (hc : coversB c x = true) (hk : coversB k x = true) :
    overlapsB c k = true := by
  rw [coversB_iff] at hc hk
  rw [overlapsB_iff]
  rcases le_or_lt k.start_dist c.start_dist with h1 | h1
  · exact Or.inl ⟨h1, le_trans hc.1 hk.2⟩
  · rcases le_or_lt c.end_dist k.end_dist with h2 | h2
    · exact Or.inr (Or.inl ⟨le_trans hk.1 hc.2, h2⟩)
    · exact Or.inr (Or.inr ⟨le_of_lt h1, le_of_lt h2⟩)

theorem noCommon_symm {a b : Brunnel} (h : NoCommon a b) : NoCommon b a :=
  fun x hx => h x ⟨hx.2, hx.1⟩

theorem findFrom_eq_some (p : ℕ → Bool) (j0 n j : ℕ)
    (h : findFrom p j0 n = some j) : j0 ≤ j ∧ j < n ∧ p j = true := by
  unfold findFrom at h
  have hmem := List.mem_of_find?_eq_some h
  have hp := List.find?_some h
  rw [List.mem_range'_1] at hmem
  exact ⟨hmem.1, by omega, hp⟩

/-- Every interval recorded by the steep-region scan started at index `i`
has endpoints `dists[a]`, `dists[c]` for indices `i ≤ a < c < elev.length`. -/
theorem scanAux_mem (elev dists : List ℚ) (thresh maxB maxT : ℚ) :
    ∀ (fuel i : ℕ) (b : Brunnel),
      b ∈ scanAux elev dists thresh maxB maxT fuel i →
      ∃ a c : ℕ, i ≤ a ∧ a < c ∧ c < elev.length ∧
        b.start_dist = dists.getD a 0 ∧ b.end_dist = dists.getD c 0 := by
  intro fuel
  induction fuel with
  | zero => intro i b hb; simp [scanAux] at hb
  | succ fuel ih =>
    intro i b hb
    rw [scanAux] at hb
    by_cases hi : i < elev.length
    swap
    · rw [if_neg hi] at hb; simp at hb
    rw [if_pos hi] at hb
    simp only [] at hb
    by_cases hneg : (diffSame elev).getD i 0 < -thresh
    · rw [if_pos hneg] at hb
      split at hb
      next j hf =>
        obtain ⟨hj0, hjn, -⟩ := findFrom_eq_some _ _ _ _ hf
        by_cases hlen : dists.getD j 0 - dists.getD i 0 ≤ maxB
        · rw [if_pos hlen] at hb
          rcases List.mem_cons.mp hb with rfl | hb2
          · exact ⟨i, j, le_refl i, by omega, hjn, rfl, rfl⟩
          · obtain ⟨a, c, ha, hac, hc, h1, h2⟩ := ih (j+1) b hb2
            exact ⟨a, c, by omega, hac, hc, h1, h2⟩
        · rw [if_neg hlen] at hb
          obtain ⟨a, c, ha, hac, hc, h1, h2⟩ := ih (j+1) b hb
          exact ⟨a, c, by omega, hac, hc, h1, h2⟩
      next hf =>
        obtain ⟨a, c, ha, hac, hc, h1, h2⟩ := ih (i+1) b hb
        exact ⟨a, c, by omega, hac, hc, h1, h2⟩
    · rw [if_neg hneg] at hb
      by_cases hpos : thresh < (diffSame elev).getD i 0
      · rw [if_pos hpos] at hb
        split at hb
        next j hf =>
          obtain ⟨hj0, hjn, -⟩ := findFrom_eq_some _ _ _ _ hf
          by_cases hlen : dists.getD j 0 - dists.getD i 0 ≤ maxT
          · rw [if_pos hlen] at hb
            rcases List.mem_cons.mp hb with rfl | hb2
            · exact ⟨i, j, le_refl i, by omega, hjn, rfl, rfl⟩
            · obtain ⟨a, c, ha, hac, hc, h1, h2⟩ := ih (j+1) b hb2
              exact ⟨a, c, by omega, hac, hc, h1, h2⟩
          · rw [if_neg hlen] at hb
            obtain ⟨a, c, ha, hac, hc, h1, h2⟩ := ih (j+1) b hb
            exact ⟨a, c, by omega, hac, hc, h1, h2⟩
        next hf =>
          obtain ⟨a, c, ha, hac, hc, h1, h2⟩ := ih (i+1) b hb
          exact ⟨a, c, by omega, hac, hc, h1, h2⟩
      · rw [if_neg hpos] at hb
        obtain ⟨a, c, ha, hac, hc, h1, h2⟩ := ih (i+1) b hb
        exact ⟨a, c, by omega, hac, hc, h1, h2⟩

/-- The steep-region scan records pairwise non-overlapping intervals:
after closing a span at index `j` it resumes at `j+1`, so every later
interval starts strictly beyond the closed one's end. -/
theorem scanAux_pairwise (elev dists : List ℚ) (thresh maxB maxT : ℚ)
    (hmono : ∀ c < elev.length, ∀ a < c, dists.getD a 0 < dists.getD c 0) :
    ∀ (fuel i : ℕ),
      (scanAux elev dists thresh maxB maxT fuel i).Pairwise NoCommon := by
  intro fuel
  induction fuel with
  | zero => intro i; simp [scanAux]
  | succ fuel ih =>
    intro i
    have head_case : ∀ j : ℕ, i + 1 ≤ j → j < elev.length →
        ∀ b' ∈ scanAux elev dists thresh maxB maxT fuel (j+1),
          NoCommon ⟨"bridge", dists.getD i 0, dists.getD j 0⟩ b' ∧
          NoCommon ⟨"tunnel", dists.getD i 0, dists.getD j 0⟩ b' := by
      intro j hj0 hjn b' hb'
      obtain ⟨a, c, ha, hac, hc, h1, h2⟩ :=
        scanAux_mem elev dists thresh maxB maxT fuel (j+1) b' hb'
      have hlt : dists.getD j 0 < dists.getD a 0 :=
        hmono a (by omega) j (by omega)
      constructor <;>
      · intro x hx
        obtain ⟨hx1, hx2⟩ := hx
        rw [coversB_iff] at hx1 hx2
        simp only at hx1
        rw [h1] at hx2
        linarith [hx1.2, hx2.1]
    rw [scanAux]
    by_cases hi : i < elev.length
    swap
    · rw [if_neg hi]; simp
    rw [if_pos hi]
    simp only []
    by_cases hneg : (diffSame elev).getD i 0 < -thresh
    · rw [if_pos hneg]
      split
      next j hf =>
        obtain ⟨hj0, hjn, -⟩ := findFrom_eq_some _ _ _ _ hf
        by_cases hlen : dists.getD j 0 - dists.getD i 0 ≤ maxB
        · rw [if_pos hlen]
          exact List.Pairwise.cons
            (fun b' hb' => (head_case j hj0 hjn b' hb').1) (ih (j+1))
        · rw [if_neg hlen]; exact ih (j+1)
      next hf => exact ih (i+1)
    · rw [if_neg hneg]
      by_cases hpos : thresh < (diffSame elev).getD i 0
      · rw [if_pos hpos]
        split
        next j hf =>
          obtain ⟨hj0, hjn, -⟩ := findFrom_eq_some _ _ _ _ hf
          by_cases hlen : dists.getD j 0 - dists.getD i 0 ≤ maxT
          · rw [if_pos hlen]
            exact List.Pairwise.cons
              (fun b' hb' => (head_case j hj0 hjn b' hb').2) (ih (j+1))
          · rw [if_neg hlen]; exact ih (j+1)
        next hf => exact ih (i+1)
      · rw [if_neg hpos]; exact ih (i+1)

/-- A list of pairwise non-overlapping rows has at most one row covering
any given distance. -/
theorem length_filter_le_one_of_pairwise (l : List Brunnel)
    (h : l.Pairwise NoCommon) (x : ℚ) :
    (l.filter (fun b => coversB b x)).length ≤ 1 := by
  induction l with
  | nil => simp
  | cons a l ih =>
    rw [List.pairwise_cons] at h
    by_cases hc : coversB a x = true
    · have hnil : l.filter (fun b => coversB b x) = [] := by
        rw [List.filter_eq_nil_iff]
        intro b hb hcb
        exact h.1 b hb x ⟨hc, hcb⟩
      simp [List.filter_cons, hc, hnil]
    · simp only [List.filter_cons, hc, if_false]
      exact ih h.2

/-- The final interval set is pairwise non-overlapping whenever the known
rows are: known-known pairs by hypothesis, synthetic-synthetic pairs by
the scan structure, and known-synthetic pairs because any common point
would have triggered the overlap drop test. -/
theorem finalBrunnels_pairwise (elev dists : List ℚ) (knowns : List Brunnel)
    (distance_delta : ℚ) (cb : Bool) (maxB maxT thresh : ℚ)
    (hknown : knowns.Pairwise NoCommon)
    (hmono : ∀ c < elev.length, ∀ a < c, dists.getD a 0 < dists.getD c 0) :
    (finalBrunnels elev dists knowns distance_delta cb maxB maxT
      thresh).Pairwise NoCommon := by
  unfold finalBrunnels
  split
  case isTrue =>
    have hperm := List.perm_insertionSort
      (fun a b : Brunnel => a.start_dist ≤ b.start_dist)
      (knowns ++ keptSynthetic elev dists knowns distance_delta thresh maxB maxT)
    rw [List.Perm.pairwise_iff (fun {_ _} h => noCommon_symm h) hperm,
      List.pairwise_append]
    refine ⟨hknown, ?_, ?_⟩
    · refine List.Pairwise.sublist ?_
        (scanAux_pairwise elev dists thresh maxB maxT hmono elev.length 0)
      exact (List.filter_sublist _).trans (List.filter_sublist _)
    · intro k hk c hc
      have hover : overlapsB c k = false := by
        rcases List.mem_filter.mp hc with ⟨-, hall⟩
        rw [Bool.not_eq_true', List.any_eq_false] at hall
        simpa using hall k hk
      intro x hx
      have := overlapsB_of_common c k x hx.2 hx.1
      rw [hover] at this
      exact Bool.false_ne_true this
  case isFalse => exact hknown

/-! ### C3: the at-most-one-covering-interval invariant -/

/-- Claim C3 (amended): provided no two of the supplied known intervals
cover a common distance and the sample distances are strictly increasing
over the elevation indices, at most one interval of the final
merged-and-sorted set covers any distance `x`, so the assertion
`idx.size <= 1` in the correction loop never fails.  (The claim as stated
is false: `interpolate_brunnels` never merges the known rows, so two
overlapping known intervals reach the loop and the assertion fails — see
the counterexample.) -/
theorem c3_at_most_one_cover (elev dists : List ℚ) (knowns : List Brunnel)
    (distance_delta : ℚ) (cb : Bool) (maxB maxT thresh : ℚ)
    (hknown : knowns.Pairwise NoCommon)
    (hmono : ∀ c < elev.length, ∀ a < c, dists.getD a 0 < dists.getD c 0)
    (x : ℚ) :
    ((finalBrunnels elev dists knowns distance_delta cb maxB maxT
      thresh).filter (fun b => coversB b x)).length ≤ 1 :=
  length_filter_le_one_of_pairwise _
    (finalBrunnels_pairwise elev dists knowns distance_delta cb maxB maxT
      thresh hknown hmono) x

/-! ### Correction-loop lemmas -/

theorem pyGet_nonneg (l : List ℚ) (i : ℤ) (h0 : 0 ≤ i)
    (h1 : i < (l.length : ℤ)) : pyGet l i = some (l.getD i.toNat 0) := by
  unfold pyGet
  rw [if_pos h0]
  have hlt : i.toNat < l.length := by omega
  rw [List.get?_eq_getElem?, List.getElem?_eq_getElem hlt,
    List.getD_eq_getElem?_getD, List.getElem?_eq_getElem hlt]
  rfl

theorem phaseCStep_of_nil (bs : List Brunnel) (distance_delta : ℚ) (i : ℕ)
    (x : ℚ) (ele : List ℚ)
    (hfil : bs.filter (fun b => coversB b x) = []) :
    phaseCStep bs distance_delta i x ele = some ele := by
  unfold phaseCStep
  rw [hfil]

theorem phaseCStep_of_one (bs : List Brunnel) (distance_delta : ℚ) (i : ℕ)
    (x : ℚ) (ele ele' : List ℚ) (b : Brunnel)
    (hfil : bs.filter (fun b => coversB b x) = [b])
    (h : phaseCStep bs distance_delta i x ele = some ele') :
    ∃ v, brValue bs distance_delta b x ele = some v ∧
      i < ele.length ∧ ele' = ele.set i v := by
  unfold phaseCStep at h
  rw [hfil] at h
  simp only [Option.bind_eq_some] at h
  obtain ⟨v, hv, hif⟩ := h
  by_cases hi : i < ele.length
  · rw [if_pos hi] at hif
    exact ⟨v, hv, hi, (Option.some_injective _ hif).symm⟩
  · rw [if_neg hi] at hif
    exact absurd hif (Option.some_ne_none _).symm

theorem phaseCStep_length (bs : List Brunnel) (distance_delta : ℚ) (i : ℕ)
    (x : ℚ) (ele ele' : List ℚ)
    (h : phaseCStep bs distance_delta i x ele = some ele') :
    ele'.length = ele.length := by
  unfold phaseCStep at h
  split at h
  · exact (Option.some_injective _ h) ▸ rfl
  · simp only [Option.bind_eq_some] at h
    obtain ⟨v, -, hif⟩ := h
    split at hif
    · rw [← Option.some_injective _ hif]
      exact List.length_set ele _ _
    · exact absurd hif (Option.some_ne_none _).symm
  · exact absurd h (Option.some_ne_none _).symm

theorem phaseCStep_getD_ne (bs : List Brunnel) (distance_delta : ℚ) (i : ℕ)
    (x : ℚ) (ele ele' : List ℚ)
    (h : phaseCStep bs distance_delta i x ele = some ele')
    (j : ℕ) (hj : j ≠ i) : ele'.getD j 0 = ele.getD j 0 := by
  unfold phaseCStep at h
  split at h
  · rw [← Option.some_injective _ h]
  · simp only [Option.bind_eq_some] at h
    obtain ⟨v, -, hif⟩ := h
    split at hif
    · rw [← Option.some_injective _ hif, List.getD_eq_getElem?_getD,
        List.getElem?_set_ne (fun hij => hj hij.symm),
        ← List.getD_eq_getElem?_getD]
    · exact absurd hif (Option.some_ne_none _).symm
  · exact absurd h (Option.some_ne_none _).symm

theorem phaseCGo_length (bs : List Brunnel) (distance_delta : ℚ)
    (dists : List ℚ) :
    ∀ (fuel i : ℕ) (ele out : List ℚ),
      phaseCGo bs distance_delta dists fuel i ele = some out →
      out.length = ele.length := by
  intro fuel
  induction fuel with
  | zero =>
    intro i ele out h
    rw [phaseCGo] at h
    rw [← Option.some_injective _ h]
  | succ fuel ih =>
    intro i ele out h
    rw [phaseCGo] at h
    split at h
    · simp only [Option.bind_eq_some] at h
      obtain ⟨ele1, h1, h2⟩ := h
      rw [ih (i+1) ele1 out h2]
      exact phaseCStep_length _ _ _ _ _ _ h1
    · rw [← Option.some_injective _ h]

theorem phaseCGo_getD_lt (bs : List Brunnel) (distance_delta : ℚ)
    (dists : List ℚ) :
    ∀ (fuel i : ℕ) (ele out : List ℚ),
      phaseCGo bs distance_delta dists fuel i ele = some out →
      ∀ j < i, out.getD j 0 = ele.getD j 0 := by
  intro fuel
  induction fuel with
  | zero =>
    intro i ele out h j hj
    rw [phaseCGo] at h
    rw [← Option.some_injective _ h]
  | succ fuel ih =>
    intro i ele out h j hj
    rw [phaseCGo] at h
    split at h
    · simp only [Option.bind_eq_some] at h
      obtain ⟨ele1, h1, h2⟩ := h
      rw [ih (i+1) ele1 out h2 j (by omega)]
      exact phaseCStep_getD_ne _ _ _ _ _ _ h1 j (by omega)
    · rw [← Option.some_injective _ h]

theorem phaseCGo_frame (bs : List Brunnel) (distance_delta : ℚ)
    (dists : List ℚ) :
    ∀ (fuel i : ℕ) (ele out : List ℚ),
      phaseCGo bs distance_delta dists fuel i ele = some out →
      ∀ j, bs.filter (fun b => coversB b (dists.getD j 0)) = [] →
        out.getD j 0 = ele.getD j 0 := by
  intro fuel
  induction fuel with
  | zero =>
    intro i ele out h j hj
    rw [phaseCGo] at h
    rw [← Option.some_injective _ h]
  | succ fuel ih =>
    intro i ele out h j hj
    rw [phaseCGo] at h
    split at h
    · simp only [Option.bind_eq_some] at h
      obtain ⟨ele1, h1, h2⟩ := h
      rw [ih (i+1) ele1 out h2 j hj]
      by_cases hij : j = i
      · subst hij
        rw [phaseCStep_of_nil bs distance_delta j (dists.getD j 0) ele hj] at h1
        rw [← Option.some_injective _ h1]
      · exact phaseCStep_getD_ne _ _ _ _ _ _ h1 j hij
    · rw [← Option.some_injective _ h]

/-- At a sample index `k` covered by exactly the row `b`, the output of the
correction loop holds the value computed by `brValue` from an intermediate
array that agrees with the initial array on all uncovered positions. -/
theorem phaseCGo_written (bs : List Brunnel) (distance_delta : ℚ)
    (dists : List ℚ) :
    ∀ (fuel i : ℕ) (ele out : List ℚ),
      phaseCGo bs distance_delta dists fuel i ele = some out →
      ∀ k, i ≤ k → k < dists.length → k < i + fuel →
      ∀ b, bs.filter (fun b' => coversB b' (dists.getD k 0)) = [b] →
      ∃ eleMid v,
        (∀ j, bs.filter (fun b' => coversB b' (dists.getD j 0)) = [] →
          eleMid.getD j 0 = ele.getD j 0) ∧
        eleMid.length = ele.length ∧
        brValue bs distance_delta b (dists.getD k 0) eleMid = some v ∧
        out.getD k 0 = v := by
  intro fuel
  induction fuel with
  | zero => intro i ele out h k hk1 hk2 hk3; omega
  | succ fuel ih =>
    intro i ele out h k hk1 hk2 hk3 b hfil
    rw [phaseCGo] at h
    rw [if_pos (by omega : i < dists.length)] at h
    simp only [Option.bind_eq_some] at h
    obtain ⟨ele1, h1, h2⟩ := h
    by_cases hik : k = i
    · subst hik
      obtain ⟨v, hv, hlen, hset⟩ :=
        phaseCStep_of_one bs distance_delta k (dists.getD k 0) ele ele1 b
          hfil h1
      refine ⟨ele, v, fun j _ => rfl, rfl, hv, ?_⟩
      have hout : out.getD k 0 = ele1.getD k 0 :=
        phaseCGo_getD_lt bs distance_delta dists fuel (k+1) ele1 out h2 k
          (by omega)
      rw [hout, hset, List.getD_eq_getElem?_getD, List.getElem?_set_self hlen]
      rfl
    · obtain ⟨eleMid, v, hframe, hlenMid, hv, hout⟩ :=
        ih (i+1) ele1 out h2 k (by omega) hk2 (by omega) b hfil
      refine ⟨eleMid, v, ?_, ?_, hv, hout⟩
      · intro j hj
        rw [hframe j hj]
        by_cases hij : j = i
        · subst hij
          rw [phaseCStep_of_nil bs distance_delta j (dists.getD j 0) ele hj]
            at h1
          rw [← Option.some_injective _ h1]
        · exact phaseCStep_getD_ne _ _ _ _ _ _ h1 j hij
      · rw [hlenMid, phaseCStep_length _ _ _ _ _ _ h1]

/-- Evaluation of `brValue` in the interior case: both buffered boundary indices are
strictly inside the array, so both endpoint elevations are read directly. -/
theorem brValue_interior (bs : List Brunnel) (distance_delta : ℚ)
    (b : Brunnel) (x : ℚ) (ele : List ℚ)
    (hs0 : 0 < pyRound (b.start_dist / distance_delta) - 1)
    (hs1 : pyRound (b.start_dist / distance_delta) - 1 < (ele.length : ℤ))
    (ht0 : 0 ≤ pyRound (b.end_dist / distance_delta) + 1)
    (ht1 : pyRound (b.end_dist / distance_delta) + 1 < (ele.length : ℤ) - 1) :
    brValue bs distance_delta b x ele =
      some (lineEval (b.start_dist - distance_delta)
        (ele.getD (pyRound (b.start_dist / distance_delta) - 1).toNat 0)
        (b.end_dist + distance_delta)
        (ele.getD (pyRound (b.end_dist / distance_delta) + 1).toNat 0) x) := by
  unfold brValue
  simp only []
  rw [if_pos hs0, if_pos ht1, pyGet_nonneg ele _ (le_of_lt hs0) hs1,
    pyGet_nonneg ele _ ht0 (by omega)]
  rfl

/-- Evaluation of `brValue` in the both-`None` fallback case: neither buffered boundary
index is strictly inside the array, so the code falls back to
`ele_brunnel[0]` and `ele_brunnel[round(end_dists[-1] / distance_delta)]`,
the latter indexed by the LAST row's `end_dist`, which need not be the
last sample of the profile. -/
theorem brValue_fallback (bs : List Brunnel) (distance_delta : ℚ)
    (b : Brunnel) (x : ℚ) (ele : List ℚ)
    (hs0 : ¬(0 < pyRound (b.start_dist / distance_delta) - 1))
    (ht1 : ¬(pyRound (b.end_dist / distance_delta) + 1 <
      (ele.length : ℤ) - 1))
    (he0 : 0 < ele.length)
    (he2a : 0 ≤ pyRound ((bs.getLastD b).end_dist / distance_delta))
    (he2b : pyRound ((bs.getLastD b).end_dist / distance_delta) <
      (ele.length : ℤ)) :
    brValue bs distance_delta b x ele =
      some (lineEval (b.start_dist - distance_delta) (ele.getD 0 0)
        (b.end_dist + distance_delta)
        (ele.getD (pyRound ((bs.getLastD b).end_dist /
          distance_delta)).toNat 0) x) := by
  unfold brValue
  simp only []
  rw [if_neg hs0, if_neg ht1,
    pyGet_nonneg ele 0 le_rfl (by exact_mod_cast he0),
    pyGet_nonneg ele _ he2a he2b]
  rfl

/-! ### C1: the covered-sample correction -/

/-- Claim C1: when the correction loop succeeds, every sample covered by
no interval of the final set keeps its input elevation, and every sample
at distance `x` covered by exactly one interval `b` whose buffered
boundary indices are strictly interior and land on uncovered samples is
overwritten with the value at `x` of the straight line through
`(start_dist - distance_delta, start_ele)` and
`(end_dist + distance_delta, end_ele)`, where `start_ele`/`end_ele` are
the input elevations at the buffered boundary indices. -/
theorem c1_covered_sample_line (elevation distances : List ℚ)
    (brunnels : List Brunnel) (distance_delta : ℚ)
    (construct_brunnels : Bool) (maxB maxT thresh : ℚ)
    (out : List ℚ) (i : ℕ) (b : Brunnel)
    (hres : interpolate_brunnels elevation distances brunnels distance_delta
      construct_brunnels maxB maxT thresh = some out)
    (hi : i < distances.length)
    (hfil : (finalBrunnels elevation distances brunnels distance_delta
        construct_brunnels maxB maxT thresh).filter
        (fun b' => coversB b' (distances.getD i 0)) = [b])
    (hs0 : 0 < pyRound (b.start_dist / distance_delta) - 1)
    (hs1 : pyRound (b.start_dist / distance_delta) - 1 <
      (elevation.length : ℤ))
    (ht0 : 0 ≤ pyRound (b.end_dist / distance_delta) + 1)
    (ht1 : pyRound (b.end_dist / distance_delta) + 1 <
      (elevation.length : ℤ) - 1)
    (hsu : (finalBrunnels elevation distances brunnels distance_delta
        construct_brunnels maxB maxT thresh).filter
        (fun b' => coversB b' (distances.getD
          (pyRound (b.start_dist / distance_delta) - 1).toNat 0)) = [])
    (htu : (finalBrunnels elevation distances brunnels distance_delta
        construct_brunnels maxB maxT thresh).filter
        (fun b' => coversB b' (distances.getD
          (pyRound (b.end_dist / distance_delta) + 1).toNat 0)) = []) :
    out.getD i 0 =
      lineEval (b.start_dist - distance_delta)
        (elevation.getD (pyRound (b.start_dist / distance_delta) - 1).toNat 0)
        (b.end_dist + distance_delta)
        (elevation.getD (pyRound (b.end_dist / distance_delta) + 1).toNat 0)
        (distances.getD i 0) ∧
    ∀ j, (finalBrunnels elevation distances brunnels distance_delta
        construct_brunnels maxB maxT thresh).filter
        (fun b' => coversB b' (distances.getD j 0)) = [] →
      out.getD j 0 = elevation.getD j 0 := by
  unfold interpolate_brunnels at hres
  split at hres
  · exfalso
    next hempty =>
    rcases Bool.and_eq_true _ _ |>.mp hempty with ⟨he, hc⟩
    have : brunnels = [] := List.isEmpty_iff.mp he
    have hcb : construct_brunnels = false := by
      cases construct_brunnels
      · rfl
      · simp at hc
    rw [finalBrunnels, hcb, if_neg (Bool.false_ne_true), this,
      List.filter_nil] at hfil
    exact List.cons_ne_nil b [] hfil.symm
  · constructor
    · obtain ⟨eleMid, v, hframe, hlenMid, hv, hout⟩ :=
        phaseCGo_written _ distance_delta distances distances.length 0
          elevation out hres i (Nat.zero_le i) hi (by omega) b hfil
      rw [hout]
      rw [brValue_interior _ _ _ _ _ hs0 (by rw [hlenMid]; exact hs1) ht0
        (by rw [hlenMid]; exact ht1)] at hv
      have hs := hframe _ hsu
      have ht := hframe _ htu
      rw [hs, ht] at hv
      exact (Option.some_injective _ hv).symm
    · intro j hj
      exact phaseCGo_frame _ distance_delta distances distances.length 0
        elevation out hres j hj

/-! ### C2: the both-boundaries-outside fallback -/

/-- Claim C2 (amended): when both buffered boundary indices fall outside
the strict interior (both endpoint reads are skipped and `start_ele` and
`end_ele` remain `None`), the fitted line uses the FIRST elevation sample
and the sample at index `round(end_dists[-1] / distance_delta)` — computed
from the LAST interval's `end_dist` — which is the last sample only when
that rounding lands on the last index.  The claim's "first and last
elevation samples of the profile" is false in general — see the
counterexample. -/
theorem c2_fallback_endpoints (elevation distances : List ℚ)
    (brunnels : List Brunnel) (distance_delta : ℚ)
    (construct_brunnels : Bool) (maxB maxT thresh : ℚ)
    (out : List ℚ) (i : ℕ) (b : Brunnel)
    (hres : interpolate_brunnels elevation distances brunnels distance_delta
      construct_brunnels maxB maxT thresh = some out)
    (hi : i < distances.length)
    (hfil : (finalBrunnels elevation distances brunnels distance_delta
        construct_brunnels maxB maxT thresh).filter
        (fun b' => coversB b' (distances.getD i 0)) = [b])
    (hs0 : ¬(0 < pyRound (b.start_dist / distance_delta) - 1))
    (ht1 : ¬(pyRound (b.end_dist / distance_delta) + 1 <
      (elevation.length : ℤ) - 1))
    (he0 : 0 < elevation.length)
    (he2a : 0 ≤ pyRound (((finalBrunnels elevation distances brunnels
      distance_delta construct_brunnels maxB maxT thresh).getLastD b).end_dist /
      distance_delta))
    (he2b : pyRound (((finalBrunnels elevation distances brunnels
      distance_delta construct_brunnels maxB maxT thresh).getLastD b).end_dist /
      distance_delta) < (elevation.length : ℤ))
    (hsu : (finalBrunnels elevation distances brunnels distance_delta
        construct_brunnels maxB maxT thresh).filter
        (fun b' => coversB b' (distances.getD 0 0)) = [])
    (htu : (finalBrunnels elevation distances brunnels distance_delta
        construct_brunnels maxB maxT thresh).filter
        (fun b' => coversB b' (distances.getD
          (pyRound (((finalBrunnels elevation distances brunnels
            distance_delta construct_brunnels maxB maxT
            thresh).getLastD b).end_dist / distance_delta)).toNat 0)) = []) :
    out.getD i 0 =
      lineEval (b.start_dist - distance_delta) (elevation.getD 0 0)
        (b.end_dist + distance_delta)
        (elevation.getD (pyRound (((finalBrunnels elevation distances
          brunnels distance_delta construct_brunnels maxB maxT
          thresh).getLastD b).end_dist / distance_delta)).toNat 0)
        (distances.getD i 0) := by
  unfold interpolate_brunnels at hres
  split at hres
  · exfalso
    next hempty =>
    rcases Bool.and_eq_true _ _ |>.mp hempty with ⟨he, hc⟩
    have : brunnels = [] := List.isEmpty_iff.mp he
    have hcb : construct_brunnels = false := by
      cases construct_brunnels
      · rfl
      · simp at hc
    rw [finalBrunnels, hcb, if_neg (Bool.false_ne_true), this,
      List.filter_nil] at hfil
    exact List.cons_ne_nil b [] hfil.symm
  · obtain ⟨eleMid, v, hframe, hlenMid, hv, hout⟩ :=
      phaseCGo_written _ distance_delta distances distances.length 0
        elevation out hres i (Nat.zero_le i) hi (by omega) b hfil
    rw [hout]
    rw [brValue_fallback _ _ _ _ _ hs0 (by rw [hlenMid]; exact ht1)
      (by rw [hlenMid]; exact he0) he2a (by rw [hlenMid]; exact he2b)] at hv
    have hs := hframe _ hsu
    have ht := hframe _ htu
    rw [hs, ht] at hv
    exact (Option.some_injective _ hv).symm

/-! ### C6: the first-difference signal -/

/-- Claim C6 (amended): for elevation arrays with at least two samples the
steep-region difference signal has the same length as the elevation array
and equals `elevation[i] - elevation[i-1]` at every position `i ≥ 1`, but
at position 0 it equals `elevation[0]` (the convolution is zero-padded,
so the first entry is the first element minus zero, not zero). -/
theorem c6_diff_same (a : List ℚ) (h : 2 ≤ a.length) :
    (diffSame a).length = a.length ∧
    (diffSame a).getD 0 0 = a.getD 0 0 ∧
    ∀ i, 1 ≤ i → i < a.length →
      (diffSame a).getD i 0 = a.getD i 0 - a.getD (i-1) 0 := by
  have hmax : max a.length 2 = a.length := max_eq_left h
  have hval : ∀ i, i < a.length →
      (diffSame a).getD i 0 =
        (if i < a.length then a.getD i 0 else 0) -
        (if 1 ≤ i ∧ i - 1 < a.length then a.getD (i-1) 0 else 0) := by
    intro i hi
    simp only [diffSame, hmax, List.getD_eq_getElem?_getD, List.getElem?_map,
      List.getElem?_range, hi, if_pos, Option.map_some', Option.getD_some]
  refine ⟨by simp [diffSame, hmax], ?_, ?_⟩
  · have h0 : 0 < a.length := by omega
    rw [hval 0 h0]
    simp [h0]
  · intro i h1 hi
    rw [hval i hi]
    have h2 : i - 1 < a.length := by omega
    simp [hi, h1, h2]

/-! ### C5: the synthetic length filter -/

/-- Claim C5 (amended): a synthetic candidate survives to the final
synthetic set iff it is a scan candidate, its length `end_dist -
start_dist` is STRICTLY greater than `distance_delta` (candidates of
length exactly `distance_delta` are discarded, the filter is
`length > distance_delta`), and it passes the overlap test against every
known interval. -/
theorem c5_length_filter (elev dists : List ℚ) (knowns : List Brunnel)
    (distance_delta thresh maxB maxT : ℚ) (c : Brunnel) :
    c ∈ keptSynthetic elev dists knowns distance_delta thresh maxB maxT ↔
      c ∈ constructedBrunnels elev dists thresh maxB maxT ∧
      distance_delta < c.end_dist - c.start_dist ∧
      ∀ k ∈ knowns, overlapsB c k = false := by
  simp only [keptSynthetic, lengthFiltered, List.mem_filter, decide_eq_true_eq,
    Bool.not_eq_true', List.any_eq_false, and_assoc]
  refine and_congr_right fun _ => and_congr_right fun _ => ?_
  exact forall₂_congr fun k _ => (Bool.not_eq_true _).symm ▸ Iff.rfl

/-! ### C4: synthetic intervals overlapping known intervals -/

/-- Claim C4: every synthetic candidate that passes the length filter but
whose start lies inside a known interval, whose end lies inside a known
interval, or which contains a known interval, is discarded from the
synthetic set, while every known interval reaches the final set; so for
such an overlap the known interval alone is applied, never both. -/
theorem c4_overlap_discard (elev dists : List ℚ) (knowns : List Brunnel)
    (distance_delta maxB maxT thresh : ℚ) (c k : Brunnel)
    (hk : k ∈ knowns)
    (hov : overlapsB c k = true) :
    c ∉ keptSynthetic elev dists knowns distance_delta thresh maxB maxT ∧
    k ∈ finalBrunnels elev dists knowns distance_delta true maxB maxT thresh := by
  constructor
  · intro hc
    rcases (List.mem_filter.mp hc) with ⟨-, hall⟩
    rw [Bool.not_eq_true', List.any_eq_false] at hall
    exact absurd hov (by simpa using hall k hk)
  · have hperm := List.perm_insertionSort
      (fun a b : Brunnel => a.start_dist ≤ b.start_dist)
      (knowns ++ keptSynthetic elev dists knowns distance_delta thresh maxB maxT)
    rw [finalBrunnels, if_pos rfl, hperm.mem_iff]
    exact List.mem_append_left _ hk

/-! ### C7: the Phase A merge pass of the old implementation -/

/-- Claim C7 (amended): when rows 1 and 2 each satisfy the merge test
against their predecessor row's original `end_dist`, the merge loop of
`interpolate_brunnels_old` extends row 0's `end_dist` to row 1's
`end_dist` and then extends the already-dropped row 1's `end_dist` to row
2's `end_dist`; the single retained interval therefore ends at the SECOND
interval's `end_dist`, not at the last `end_dist` of the chain. -/
theorem c7_merge_chain (r0 r1 r2 : Brunnel) (m : ℚ)
    (h1 : r1.start_dist ≤ r0.end_dist + m)
    (h2 : r2.start_dist ≤ r1.end_dist + m) :
    mergePass [r0, r1, r2] m = [{ r0 with end_dist := r1.end_dist }] := by
  simp [mergePass, mergeStep, List.range_succ, h1, h2, List.set]

/-! ### C10: no in-place mutation of the passed elevation array -/

/-- Claim C10 (amended): `interpolate_brunnels` does not write its
corrected values into the elevation array passed by the caller; it writes
them into a copy and returns the copy, so after a successful call the
caller's array still holds the input values while the corrected values
are only in the returned array. -/
theorem c10_no_input_mutation (elevation distances : List ℚ)
    (brunnels : List Brunnel) (distance_delta : ℚ)
    (construct_brunnels : Bool) (maxB maxT thresh : ℚ)
    (ret after : List ℚ)
    (h : interpolate_brunnels_effect elevation distances brunnels
      distance_delta construct_brunnels maxB maxT thresh = some (ret, after)) :
    after = elevation ∧
    interpolate_brunnels elevation distances brunnels distance_delta
      construct_brunnels maxB maxT thresh = some ret := by
  unfold interpolate_brunnels_effect at h
  cases hres : interpolate_brunnels elevation distances brunnels
      distance_delta construct_brunnels maxB maxT thresh with
  | none => rw [hres] at h; simp at h
  | some v =>
    rw [hres] at h
    simp only [Option.map_some', Option.some.injEq, Prod.mk.injEq] at h
    exact ⟨h.2.symm, congrArg some h.1⟩


/-! ### C8: the forest-height adjustment -/

theorem rollingStd_nonneg (l : List ℝ) (window_size i : ℕ) (t : ℝ)
    (h : rollingStd l window_size i = some t) : 0 ≤ t := by
  unfold rollingStd at h
  split at h
  · rw [← Option.some_injective _ h]
    exact Real.sqrt_nonneg _
  · exact absurd h (Option.some_ne_none _).symm

theorem adjust_forest_getD (l : List ℝ) (window_size : ℕ)
    (std_thresh sub_factor clip : ℝ) (i : ℕ) (hi : i < l.length) :
    (adjust_forest_height l window_size std_thresh sub_factor clip).getD i 0 =
      match rollingStd l window_size i with
      | some t =>
        if std_thresh < t then l.getD i 0 - min (max (t * sub_factor) 0) clip
        else l.getD i 0
      | none => l.getD i 0 := by
  unfold adjust_forest_height
  rw [List.getD_eq_getElem?_getD, List.getElem?_map, List.getElem?_range hi]
  rfl

/-- Claim C8: positions where the trailing rolling standard deviation is
undefined (the first `window_size - 1` positions) or does not exceed
`std_thresh` keep their input elevation, and positions where it exceeds
`std_thresh` have exactly `min (std * sub_factor) clip` subtracted
(for a nonnegative `sub_factor`, `np.clip(t * sub_factor, 0, clip)`
equals that minimum). -/
theorem c8_adjust_forest (l : List ℝ) (window_size : ℕ)
    (std_thresh sub_factor clip : ℝ) (hw : 2 ≤ window_size)
    (hf : 0 ≤ sub_factor) :
    ∀ i < l.length,
      (rollingStd l window_size i = none ↔ i + 1 < window_size) ∧
      (rollingStd l window_size i = none →
        (adjust_forest_height l window_size std_thresh sub_factor
          clip).getD i 0 = l.getD i 0) ∧
      (∀ t, rollingStd l window_size i = some t → t ≤ std_thresh →
        (adjust_forest_height l window_size std_thresh sub_factor
          clip).getD i 0 = l.getD i 0) ∧
      (∀ t, rollingStd l window_size i = some t → std_thresh < t →
        (adjust_forest_height l window_size std_thresh sub_factor
          clip).getD i 0 = l.getD i 0 - min (t * sub_factor) clip) := by
  intro i hi
  refine ⟨?_, ?_, ?_, ?_⟩
  · unfold rollingStd
    split
    · next hcond => simp only [reduceCtorEq, false_iff]; omega
    · next hcond => simp only [true_iff]; omega
  · intro hnone
    rw [adjust_forest_getD l window_size std_thresh sub_factor clip i hi,
      hnone]
  · intro t ht hle
    rw [adjust_forest_getD l window_size std_thresh sub_factor clip i hi, ht]
    simp only [not_lt.mpr hle, if_false]
  · intro t ht hgt
    rw [adjust_forest_getD l window_size std_thresh sub_factor clip i hi, ht]
    simp only [hgt, if_true]
    have h0 : 0 ≤ t * sub_factor :=
      mul_nonneg (rollingStd_nonneg l window_size i t ht) hf
    rw [max_eq_left h0]

/-! ### C9: resampling -/

theorem getD_mem_q (l : List ℚ) (j : ℕ) (h : j < l.length) :
    l.getD j 0 ∈ l := by
  rw [List.getD_eq_getElem?_getD, List.getElem?_eq_getElem h]
  exact List.getElem_mem h

theorem pairwise_getD_head_le (x0 : ℚ) (xs : List ℚ)
    (hp : List.Pairwise (· < ·) (x0 :: xs)) :
    ∀ j < xs.length + 1, x0 ≤ (x0 :: xs).getD j 0 := by
  intro j hj
  cases j with
  | zero => simp
  | succ j' =>
    rw [List.getD_cons_succ]
    have hmem : xs.getD j' 0 ∈ xs := getD_mem_q xs j' (by omega)
    exact le_of_lt (List.rel_of_pairwise_cons hp hmem)

theorem interpGo_segment :
    ∀ (kn : List (ℚ × ℚ)) (x0 f0 : ℚ) (j : ℕ) (x : ℚ),
      List.Chain (· < ·) x0 (kn.map Prod.fst) →
      j < kn.length →
      (x0 :: kn.map Prod.fst).getD j 0 ≤ x →
      x ≤ (kn.map Prod.fst).getD j 0 →
      interpGo x0 f0 kn x =
        (f0 :: kn.map Prod.snd).getD j 0 +
          ((kn.map Prod.snd).getD j 0 - (f0 :: kn.map Prod.snd).getD j 0) /
            ((kn.map Prod.fst).getD j 0 - (x0 :: kn.map Prod.fst).getD j 0) *
          (x - (x0 :: kn.map Prod.fst).getD j 0) := by
  intro kn
  induction kn with
  | nil => intro x0 f0 j x hch hj hl hr; simp at hj
  | cons p rest ih =>
    obtain ⟨x1, f1⟩ := p
    intro x0 f0 j x hch hj hl hr
    rw [List.map_cons, List.chain_cons] at hch
    cases j with
    | zero =>
      simp only [List.map_cons, List.getD_cons_zero, List.getD_cons_succ]
        at hl hr ⊢
      rw [interpGo, if_pos hr]
    | succ j' =>
      simp only [List.map_cons, List.getD_cons_succ] at hl hr ⊢
      by_cases hx1 : x ≤ x1
      · cases j' with
        | zero =>
          rw [List.getD_cons_zero] at hl
          have hxeq : x = x1 := le_antisymm hx1 hl
          rw [interpGo, if_pos hx1, hxeq]
          rw [List.getD_cons_zero, List.getD_cons_zero]
          have hne : x1 - x0 ≠ 0 := sub_ne_zero.mpr (ne_of_gt hch.1)
          field_simp
        | succ j3 =>
          exfalso
          rw [List.getD_cons_succ] at hl
          have hmem : (rest.map Prod.fst).getD j3 0 ∈ rest.map Prod.fst := by
            apply getD_mem_q
            rw [List.length_map]
            simp only [List.length_cons] at hj
            omega
          have hx1lt : x1 < (rest.map Prod.fst).getD j3 0 :=
            List.rel_of_pairwise_cons
              ((List.chain_iff_pairwise).mp (List.Chain.cons hch.1 hch.2)).tail
              hmem
          linarith
      · rw [interpGo, if_neg hx1]
        have hj' : j' < rest.length := by
          simp only [List.length_cons] at hj
          omega
        exact ih x1 f1 j' x hch.2 hj' hl hr

theorem np_interp_segment (xp fp : List ℚ) (hlen : fp.length = xp.length)
    (hmono : List.Pairwise (· < ·) xp) (j : ℕ) (x : ℚ)
    (hj : j + 1 < xp.length)
    (hl : xp.getD j 0 ≤ x) (hr : x ≤ xp.getD (j+1) 0) :
    np_interp xp fp x = fp.getD j 0 +
      (fp.getD (j+1) 0 - fp.getD j 0) / (xp.getD (j+1) 0 - xp.getD j 0) *
        (x - xp.getD j 0) := by
  cases xp with
  | nil => simp at hj
  | cons x0 xs =>
    cases fp with
    | nil => simp at hlen
    | cons f0 fs =>
      have hfs : fs.length = xs.length := by simpa using hlen
      have hmapf : (xs.zip fs).map Prod.fst = xs :=
        List.map_fst_zip xs fs (le_of_eq hfs.symm)
      have hmaps : (xs.zip fs).map Prod.snd = fs :=
        List.map_snd_zip xs fs (le_of_eq hfs)
      have hzlen : (xs.zip fs).length = xs.length := by
        rw [List.length_zip, hfs, min_self]
      have hchain : List.Chain (· < ·) x0 xs :=
        (List.chain_iff_pairwise).mpr hmono
      have hj' : j < xs.length := by
        simp only [List.length_cons] at hj
        omega
      have hnotlt : ¬ x < x0 := by
        have h0 : x0 ≤ (x0 :: xs).getD j 0 :=
          pairwise_getD_head_le x0 xs hmono j (by omega)
        exact not_lt.mpr (le_trans h0 hl)
      rw [np_interp, if_neg hnotlt]
      have := interpGo_segment (xs.zip fs) x0 f0 j x
        (by rw [hmapf]; exact hchain) (by rw [hzlen]; exact hj')
        (by rw [hmapf]; exact hl)
        (by rw [hmapf]; exact (by simpa using hr))
      rw [this, hmapf, hmaps]
      simp [List.getD_cons_succ]

/-- Claim C9: for strictly increasing distances with positive final
distance, `resample_ele` returns the grid `0, step, 2*step, ...` (strictly
below the final distance) with the final original distance appended (the
arange grid never reaches it exactly), of equal distance/elevation
lengths, last distance exactly the input's last distance, and elevations
linearly interpolated from the input knots. -/
theorem c9_resample (elevation distances : List ℚ) (distance : ℚ)
    (hne : distances ≠ [])
    (hlen : elevation.length = distances.length)
    (hmono : List.Pairwise (· < ·) distances)
    (hpos : 0 < distances.getLastD 0)
    (hstep : 0 < distance) :
    (resample_ele elevation distances distance =
      some (arangeQ (distances.getLastD 0) distance ++
          [distances.getLastD 0],
        (arangeQ (distances.getLastD 0) distance ++
          [distances.getLastD 0]).map (np_interp distances elevation))) ∧
    (∀ dn en, resample_ele elevation distances distance = some (dn, en) →
      dn.length = en.length ∧ dn.getLast? = some (distances.getLastD 0)) ∧
    (∀ k < (arangeQ (distances.getLastD 0) distance).length,
      (arangeQ (distances.getLastD 0) distance).getD k 0 =
        (k : ℚ) * distance) ∧
    ((arangeQ (distances.getLastD 0) distance).getLastD 0 <
      distances.getLastD 0) ∧
    (∀ j x, j + 1 < distances.length → distances.getD j 0 ≤ x →
      x ≤ distances.getD (j+1) 0 →
      np_interp distances elevation x =
        elevation.getD j 0 +
          (elevation.getD (j+1) 0 - elevation.getD j 0) /
            (distances.getD (j+1) 0 - distances.getD j 0) *
          (x - distances.getD j 0)) := by
  set D := distances.getLastD 0 with hDdef
  have hD : distances.getLast? = some D := by
    cases hD' : distances.getLast? with
    | none => exact absurd (List.getLast?_eq_none_iff.mp hD') hne
    | some y =>
      rw [hDdef, List.getLastD_eq_getLast?, hD']
      rfl
  have hceil : (0 : ℤ) < ⌈D / distance⌉ :=
    Int.ceil_pos.mpr (div_pos hpos hstep)
  set n := (⌈D / distance⌉).toNat with hndef
  have hn1 : 1 ≤ n := by omega
  have hncast : ((n : ℤ)) = ⌈D / distance⌉ := Int.toNat_of_nonneg (by omega)
  have hlenA : (arangeQ D distance).length = n := by
    rw [arangeQ, List.length_map, List.length_range, ← hndef]
  have harange : ∀ k < n, (arangeQ D distance).getD k 0 =
      (k : ℚ) * distance := by
    intro k hk
    rw [arangeQ, ← hndef, List.getD_eq_getElem?_getD, List.getElem?_map,
      List.getElem?_range hk]
    rfl
  have hlast : (arangeQ D distance).getLast? =
      some (((n - 1 : ℕ) : ℚ) * distance) := by
    rw [List.getLast?_eq_getElem?, hlenA, arangeQ, ← hndef,
      List.getElem?_map, List.getElem?_range (by omega : n - 1 < n)]
    rfl
  have hlt : ((n - 1 : ℕ) : ℚ) * distance < D := by
    have h1 : ((⌈D / distance⌉ : ℚ) - 1) < D / distance := by
      have := Int.ceil_lt_add_one (D / distance)
      linarith
    have h2 : ((n - 1 : ℕ) : ℚ) = (⌈D / distance⌉ : ℚ) - 1 := by
      have : ((n - 1 : ℕ) : ℤ) = ⌈D / distance⌉ - 1 := by omega
      exact_mod_cast congrArg (fun z : ℤ => (z : ℚ)) this
    rw [h2]
    exact (lt_div_iff₀ hstep).mp h1
  have hmain : resample_ele elevation distances distance =
      some (arangeQ D distance ++ [D],
        (arangeQ D distance ++ [D]).map (np_interp distances elevation)) := by
    unfold resample_ele
    rw [hD]
    simp only []
    rw [hlast]
    show (if ((n - 1 : ℕ) : ℚ) * distance ≤ D then
        some (arangeQ D distance ++ [D],
          (arangeQ D distance ++ [D]).map (np_interp distances elevation))
      else some (arangeQ D distance,
        (arangeQ D distance).map (np_interp distances elevation))) = _
    rw [if_pos (le_of_lt hlt)]
  refine ⟨hmain, ?_, fun k hk => harange k (by rw [hlenA] at hk; exact hk), ?_, ?_⟩
  · intro dn en h
    rw [hmain] at h
    obtain ⟨h1, h2⟩ := Prod.mk.injEq _ _ _ _ ▸ (Option.some_injective _ h)
    constructor
    · rw [← h1, ← h2, List.length_map]
    · rw [← h1, List.getLast?_concat]
  · rw [List.getLastD_eq_getLast?, hlast]
    exact hlt
  · intro j x hj hl hr
    exact np_interp_segment distances elevation hlen hmono j x hj hl hr

/-! ### Concrete evaluations: witnesses and counterexamples

`Rat.add`, `Rat.sub`, `Rat.mul`, `Rat.inv` and `Rat.ofScientific` are
`@[irreducible]` in core only to keep elaboration fast; making them
locally semireducible lets `decide` evaluate the embedded functions on
concrete inputs. -/

section ConcreteEvaluations

attribute [local semireducible] Rat.add Rat.sub Rat.mul Rat.inv
  Rat.ofScientific

/-- Claim C1 witness: a profile `[10,20,100,40,50]` at distances
`[0,10,20,30,40]` with the known tunnel `[15,25]`; the covered sample at
distance 20 is overwritten with the line through `(5, 20)` and `(35, 40)`
evaluated at 20 (which is 30). -/
theorem c1_witness :
    interpolate_brunnels [10,20,100,40,50] [0,10,20,30,40] [⟨"t",15,25⟩]
      10 false 300 300 3 = some [10,20,30,40,50] ∧
    ([10,20,30,40,50] : List ℚ).getD 2 0 = lineEval 5 20 35 40 20 := by
  refine ⟨by decide, ?_⟩
  exact (c1_covered_sample_line [10,20,100,40,50] [0,10,20,30,40]
    [⟨"t",15,25⟩] 10 false 300 300 3 [10,20,30,40,50] 2 ⟨"t",15,25⟩
    (by decide) (by decide) (by decide) (by decide) (by decide) (by decide)
    (by decide) (by decide) (by decide)).1

/-- Claim C2 counterexample: with elevation `[1,100,3,7]`, distances
`[0,10,20,30]` and the single interval `[5,15]`, the covered sample at
distance 10 lands in the both-`None` fallback; the claim's "first and
last elevation samples" (1 and 7) would give the corrected value 4, but
the code uses `ele[0] = 1` and `ele[round(15/10)] = ele[2] = 3`, giving
2. -/
theorem c2_counterexample :
    interpolate_brunnels [1,100,3,7] [0,10,20,30] [⟨"t",5,15⟩] 10 false
      300 300 3 = some [1,2,3,7] ∧
    lineEval (5 - 10) 1 (15 + 10) 7 10 = 4 ∧
    ((2 : ℚ) ≠ 4) := by decide

/-- Claim C2 witness (for the amended claim): the same run, with the
fallback line fitted through `ele[0] = 1` and `ele[2] = 3`. -/
theorem c2_witness :
    interpolate_brunnels [1,100,3,7] [0,10,20,30] [⟨"t",5,15⟩] 10 false
      300 300 3 = some [1,2,3,7] ∧
    ([1,2,3,7] : List ℚ).getD 1 0 = lineEval (5 - 10) 1 (15 + 10) 3 10 := by
  refine ⟨by decide, ?_⟩
  exact c2_fallback_endpoints [1,100,3,7] [0,10,20,30] [⟨"t",5,15⟩] 10
    false 300 300 3 [1,2,3,7] 1 ⟨"t",5,15⟩ (by decide) (by decide)
    (by decide) (by decide) (by decide) (by decide) (by decide) (by decide)
    (by decide) (by decide)

/-- Claim C3 counterexample: two overlapping known intervals `[0,20]` and
`[10,30]` reach the correction loop unmerged; both cover the sample at
distance 10 and the `assert idx.size <= 1` fails (the call returns the
failure). -/
theorem c3_counterexample :
    ((finalBrunnels [1,2,3,4] [0,10,20,30] [⟨"a",0,20⟩, ⟨"b",10,30⟩] 10
      false 300 300 3).filter (fun b => coversB b 10)).length = 2 ∧
    interpolate_brunnels [1,2,3,4] [0,10,20,30] [⟨"a",0,20⟩, ⟨"b",10,30⟩]
      10 false 300 300 3 = none := by decide

/-- Claim C3 witness: with a single known interval and construction
enabled on a profile that also yields a synthetic tunnel, every distance
is covered by at most one interval of the final set. -/
theorem c3_witness :
    ((finalBrunnels [10,0,10,10] [0,10,20,30] [⟨"k",5,15⟩] 9 true 300 300
      3).filter (fun b => coversB b 10)).length ≤ 1 :=
  c3_at_most_one_cover [10,0,10,10] [0,10,20,30] [⟨"k",5,15⟩] 9 true 300
    300 3 (by simp) (by decide) 10

/-- Claim C4 witness: the scan of `[10,0,10,10]` records the synthetic
tunnel `[0,10]`, whose end lies inside the known interval `[5,15]`; it is
discarded while the known interval reaches the final set. -/
theorem c4_witness :
    overlapsB ⟨"tunnel",0,10⟩ ⟨"k",5,15⟩ = true ∧
    (⟨"tunnel",0,10⟩ : Brunnel) ∉
      keptSynthetic [10,0,10,10] [0,10,20,30] [⟨"k",5,15⟩] 9 3 300 300 ∧
    (⟨"k",5,15⟩ : Brunnel) ∈
      finalBrunnels [10,0,10,10] [0,10,20,30] [⟨"k",5,15⟩] 9 true 300 300
        3 := by
  have h := c4_overlap_discard [10,0,10,10] [0,10,20,30] [⟨"k",5,15⟩] 9
    300 300 3 ⟨"tunnel",0,10⟩ ⟨"k",5,15⟩ (by decide) (by decide)
  exact ⟨by decide, h.1, h.2⟩

/-- Claim C5 counterexample: the scan of elevation `[10,5,10,10]` records
the tunnel candidate `[0,10]` of length exactly `distance_delta = 10`;
its length is at least the sampling step, yet the filter
`length > distance_delta` discards it (the filtered set is empty). -/
theorem c5_counterexample :
    (⟨"tunnel", 0, 10⟩ : Brunnel) ∈
      constructedBrunnels [10,5,10,10] [0,10,20,30] 3 300 300 ∧
    ((10 : ℚ) - 0 ≥ 10) ∧
    lengthFiltered [10,5,10,10] [0,10,20,30] 10 3 300 300 = [] := by decide

/-- Claim C6 counterexample: for elevation `[5,7]` the difference signal
is `[5,2]`: position 0 holds `elevation[0] = 5`, not 0 (`np.convolve`
zero-pads; it does not edge-pad). -/
theorem c6_counterexample :
    diffSame [5, 7] = [5, 2] ∧ ((diffSame [5, 7]).getD 0 0 ≠ 0) := by
  decide

/-- Claim C6 witness: the amended description evaluated on `[5,7]`. -/
theorem c6_witness :
    (diffSame [5, 7]).length = 2 ∧ (diffSame [5, 7]).getD 0 0 = 5 ∧
    (diffSame [5, 7]).getD 1 0 = 7 - 5 := by
  obtain ⟨h1, h2, h3⟩ := c6_diff_same [5, 7] (by decide)
  exact ⟨h1, by rw [h2]; decide, by rw [h3 1 (by decide) (by decide)]; decide⟩

/-- Claim C7 counterexample: the chain `[0,10], [15,25], [30,40]` with
`merge_distance = 10` is pairwise mergeable, but the single retained
interval is `[0,25]` — its `end_dist` is the second interval's end, not
the last end of the chain (40). -/
theorem c7_counterexample :
    ((15 : ℚ) ≤ 10 + 10) ∧ ((30 : ℚ) ≤ 25 + 10) ∧
    mergePass [⟨"a",0,10⟩, ⟨"b",15,25⟩, ⟨"c",30,40⟩] 10 = [⟨"a",0,25⟩] ∧
    ((25 : ℚ) ≠ 40) := by decide

/-- Claim C7 witness: the amended chain behaviour at the same input. -/
theorem c7_witness :
    mergePass [⟨"a",0,10⟩, ⟨"b",15,25⟩, ⟨"c",30,40⟩] 10 =
      [{ (⟨"a",0,10⟩ : Brunnel) with end_dist := 25 }] :=
  c7_merge_chain ⟨"a",0,10⟩ ⟨"b",15,25⟩ ⟨"c",30,40⟩ 10 (by decide)
    (by decide)

/-- Claim C8 witness: for elevation `[0,5,10]`, window 3, the rolling
standard deviation at the last position is exactly 5 (`√25`); with
`std_thresh = 3`, `sub_factor = 3`, `clip = 20`, the correction
subtracts `min (5·3) 20 = 15`, yielding `-5`. -/
theorem c8_witness :
    rollingStd [0, 5, 10] 3 2 = some 5 ∧
    (adjust_forest_height [0, 5, 10] 3 3 3 20).getD 2 0 = -5 := by
  have hs : rollingStd ([0, 5, 10] : List ℝ) 3 2 = some 5 := by
    unfold rollingStd
    rw [if_pos (by omega : 2 ≤ 3 ∧ 3 ≤ 2 + 1)]
    simp only []
    norm_num [List.sum_cons, List.map_cons]
    rw [show (25 : ℝ) = 5^2 by norm_num]
    exact Real.sqrt_sq (by norm_num : (0:ℝ) ≤ 5)
  refine ⟨hs, ?_⟩
  have h := (c8_adjust_forest [0, 5, 10] 3 3 3 20 (by norm_num)
    (by norm_num) 2 (by norm_num)).2.2.2 5 hs (by norm_num)
  rw [h]
  norm_num [List.getD, min_def]

/-- Claim C9 witness: distances `[0,7]`, elevations `[0,14]`, step 3:
the grid is `[0,3,6]` with 7 appended, and the interpolated elevations
are `[0,6,12,14]`. -/
theorem c9_witness :
    resample_ele [0, 14] [0, 7] 3 = some ([0, 3, 6, 7], [0, 6, 12, 14]) := by
  rw [(c9_resample [0, 14] [0, 7] 3 (by decide) (by decide) (by decide)
    (by decide) (by decide)).1]
  decide

/-- Claim C10 counterexample: the corrected values `[10,20,30,40,50]`
returned by `interpolate_brunnels` differ from the passed elevation array
`[10,20,100,40,50]`, which is unchanged after the call — the corrected
values are NOT written into the array passed by the caller. -/
theorem c10_counterexample :
    interpolate_brunnels_effect [10,20,100,40,50] [0,10,20,30,40]
      [⟨"t",15,25⟩] 10 false 300 300 3 =
      some ([10,20,30,40,50], [10,20,100,40,50]) ∧
    ([10,20,30,40,50] : List ℚ) ≠ [10,20,100,40,50] := by decide

/-- Claim C10 witness: the amended no-mutation statement at a concrete
input. -/
theorem c10_witness :
    interpolate_brunnels [20,3,20] [0,10,20] [⟨"t",5,15⟩] 10 false 300
      300 3 = some [20,20,20] :=
  (c10_no_input_mutation [20,3,20] [0,10,20] [⟨"t",5,15⟩] 10 false 300
    300 3 [20,20,20] [20,3,20] (by decide)).2

end ConcreteEvaluations

end ElevationSampler
